import Mathlib

/-!
Shallow embedding of `excels_analytics/excel_merger_gui.py` (an Excel
workbook merger GUI) and proofs about it.  Strings are modelled as
`List Char`; Python `set[str]` membership is modelled by membership in a
`List (List Char)`.  Fallible code returns `Except`/`Option`.
-/

namespace ExcelMerger

/-- Whitespace recognised by the model of Python `str.strip()` (the ASCII
whitespace characters). -/
def isPySpace (c : Char) : Bool :=
  c = ' ' ∨ c = '\t' ∨ c = '\n' ∨ c = '\r' ∨ c = '\x0b' ∨ c = '\x0c'

/-- Removal of trailing whitespace, i.e. the tail half of `str.strip()`. -/
def dropEnd (l : List Char) : List Char :=
  (l.reverse.dropWhile isPySpace).reverse

/-- Model of Python `str.strip()`: drop leading and trailing whitespace. -/
def pyStrip (l : List Char) : List Char :=
  dropEnd (l.dropWhile isPySpace)

/-- The characters forbidden in Excel sheet names, from line 41 of
`excel_merger_gui.py`: `illegal = {":", "\\", "/", "?", "*", "[", "]"}`. -/
def illegalChars : List Char := [':', '\\', '/', '?', '*', '[', ']']

/-- Embedding of `sanitize_sheet_name` (lines 39-43): replace each illegal
character by an underscore, strip surrounding whitespace, and fall back to
`"Sheet"` when the result is empty. -/
def sanitize_sheet_name (name : List Char) : List Char :=
  let cleaned := pyStrip (name.map (fun ch => if ch ∈ illegalChars then '_' else ch))
  if cleaned = [] then ("Sheet".toList) else cleaned

/-- Embedding of `truncate_sheet_name` (lines 46-47): `name[:max_len]`. -/
def truncate_sheet_name (name : List Char) (maxLen : Nat) : List Char :=
  name.take maxLen

/-- Decimal digits of `n`, least significant first, with explicit fuel so
that the definition is structural (empty for `n = 0`). -/
def natDigitsRev : Nat → Nat → List Nat
  | 0, _ => []
  | fuel + 1, n => if n = 0 then [] else n % 10 :: natDigitsRev fuel (n / 10)

/-- Decimal representation of `n` as characters, modelling Python's
`f"{n}"`. -/
def natChars (n : Nat) : List Char :=
  if n = 0 then ['0']
  else (natDigitsRev n n).reverse.map (fun d => Char.ofNat (48 + d))

/-- The suffix `f"_{n}"` built at line 56 of `excel_merger_gui.py`. -/
def suffixFor (n : Nat) : List Char := '_' :: natChars n

/-- The candidate of one probe iteration (lines 56-58):
`truncate_sheet_name(base, 31 - len(suffix)) + suffix`. -/
def candidateName (base : List Char) (n : Nat) : List Char :=
  truncate_sheet_name base (31 - (suffixFor n).length) ++ suffixFor n

/-- The probe loop of `make_unique_sheet_name` (lines 55-60): try
candidates for `n, n+1, …` while fuel lasts, returning the first candidate
not in `existing`. -/
def probeLoop (existing : List (List Char)) (base : List Char) :
    Nat → Nat → Option (List Char)
  | _, 0 => none
  | n, fuel + 1 =>
    if candidateName base n ∈ existing then probeLoop existing base (n + 1) fuel
    else some (candidateName base n)

/-- The failure signalled at line 62 (`RuntimeError`), called
`NameSpaceExhausted` by the specification. -/
inductive MergeError where
  | NameSpaceExhausted
deriving DecidableEq

/-- The `base` computed at line 51:
`truncate_sheet_name(sanitize_sheet_name(desired), 31)`. -/
def uniqueBase (desired : List Char) : List Char :=
  truncate_sheet_name (sanitize_sheet_name desired) 31

/-- Embedding of `make_unique_sheet_name` (lines 50-62).  `range(2, 10000)`
is 9998 iterations starting at `n = 2`. -/
def make_unique_sheet_name (existing : List (List Char)) (desired : List Char) :
    Except MergeError (List Char) :=
  if uniqueBase desired ∈ existing then
    match probeLoop existing (uniqueBase desired) 2 9998 with
    | some c => Except.ok c
    | none => Except.error MergeError.NameSpaceExhausted
  else Except.ok (uniqueBase desired)

/-- Model of `pathlib` `PurePath.suffix` applied to a file name: the part
from the last dot on, provided that dot is neither the first nor the last
character (CPython: last dot index `i` with `0 < i < len(name) - 1`). -/
def pathSuffix (name : List Char) : List Char :=
  let after := (name.reverse.takeWhile (fun c => c != '.')).reverse
  if after.length + 2 ≤ name.length ∧ 1 ≤ after.length then '.' :: after else []

/-- Model of `pathlib` `Path.name` for a path string: the final component,
taking both `/` and `\` as separators (Windows semantics). -/
def pathNameOf (path : List Char) : List Char :=
  (path.reverse.takeWhile (fun c => c != '/' && c != '\\')).reverse

/-- Lower-cased extension of a path, as computed by
`Path(path).suffix.lower()`. -/
def extOf (path : List Char) : List Char :=
  (pathSuffix (pathNameOf path)).map Char.toLower

/-- Embedding of `fileformat_for_path` (lines 65-76). -/
def fileformat_for_path (path : List Char) : Nat :=
  if extOf path = ".xlsx".toList then 51
  else if extOf path = ".xlsm".toList then 52
  else if extOf path = ".xlsb".toList then 50
  else if extOf path = ".xls".toList then 56
  else 51

/-- The directory entries the folder scan looks at: a display name and a
directory flag (byte size plays no role in filtering or ordering). -/
structure DirEntry where
  name : List Char
  isDir : Bool
deriving DecidableEq

/-- The recognised spreadsheet extensions, `EXCEL_EXTS` at line 17. -/
def EXCEL_EXTS : List (List Char) :=
  [".xls".toList, ".xlsx".toList, ".xlsm".toList, ".xlsb".toList]

/-- Embedding of `is_excel_file` (lines 26-31): not a directory, not an
Excel lock file (name begins with `~$`), extension in `EXCEL_EXTS`.
`startswith("~$")` is modelled as `take 2 = "~$"`. -/
def is_excel_file (p : DirEntry) : Bool :=
  if p.isDir then false
  else if p.name.take 2 = "~$".toList then false
  else decide ((pathSuffix p.name).map Char.toLower ∈ EXCEL_EXTS)

/-- Case-insensitive sort key, `p.name.lower()` at line 496. -/
def nameKey (p : DirEntry) : List Char := p.name.map Char.toLower

/-- Lexicographic comparison of character lists by code point, the order
Python string comparison uses. -/
def lexLe : List Char → List Char → Bool
  | [], _ => true
  | _ :: _, [] => false
  | a :: as, b :: bs => if a < b then true else if b < a then false else lexLe as bs

/-- The comparison underlying `sorted(..., key=lambda p: p.name.lower())`. -/
def scanLe (a b : DirEntry) : Bool := lexLe (nameKey a) (nameKey b)

/-- Embedding of the folder scan at line 496:
`sorted([p for p in folder.iterdir() if is_excel_file(p)], key=...)`. -/
def scanFolder (entries : List DirEntry) : List DirEntry :=
  (entries.filter is_excel_file).mergeSort scanLe

/-- Terminal statuses a run can report on the `done` UI event. -/
inductive DoneStatus where
  | saved
  | nosave
  | cancelled
  | error
deriving DecidableEq

/-- Embedding of lines 363-375 of `_run_impl_powershell`: the terminal
status once the external process has exited with code `rc`, given whether
the cancel event is set.  A set cancel event reports `cancelled` before
the exit code is consulted; an undocumented exit code raises
`RuntimeError`, which `run` (lines 110-116) turns into the `error`
status. -/
def powershellTerminalStatus (cancelSet : Bool) (rc : Int) : DoneStatus :=
  if cancelSet then DoneStatus.cancelled
  else if rc = 0 then DoneStatus.saved
  else if rc = 3 then DoneStatus.nosave
  else if rc = 2 then DoneStatus.cancelled
  else DoneStatus.error

/-- An answer to one save request as the worker sees it: the abort signal
(`None` on the save queue), or a chosen path together with whether the
`SaveAs` call at that path succeeds. -/
inductive SaveAnswer where
  | abort
  | chosen (path : List Char) (saveOk : Bool)

/-- Embedding of the save handshake loop of `_run_impl` (lines 232-252),
driven by the sequence of answers the UI will provide.  Returns the list
of suggested names of the `SaveRequested` events issued (one per loop
iteration), the terminal status, and the path the workbook was saved to
(`none` when it is closed without saving).  An overall `none` means the
answer sequence ran out while the loop was still going (the worker would
block waiting for the next answer). -/
def saveHandshake (suggested : List Char) :
    List SaveAnswer → Option (List (List Char) × DoneStatus × Option (List Char))
  | [] => none
  | SaveAnswer.abort :: _ => some ([suggested], DoneStatus.nosave, none)
  | SaveAnswer.chosen p true :: _ => some ([suggested], DoneStatus.saved, some p)
  | SaveAnswer.chosen _ false :: rest =>
    match saveHandshake suggested rest with
    | some (reqs, st, sp) => some (suggested :: reqs, st, sp)
    | none => none

/-- Embedding of the placeholder-deletion loop (lines 221-227): walk the
initial placeholder sheets, break as soon as the destination retains at
most one sheet, otherwise delete the placeholder (`delOk` says whether the
`Delete` call succeeds; a failure is swallowed and the loop continues).
Sheets carry numeric ids; the second component records the destination's
sheet count at each successful deletion. -/
def deleteLoop (delOk : Nat → Bool) : List Nat → List Nat → List Nat × List Nat
  | [], wb => (wb, [])
  | sh :: rest, wb =>
    if wb.length ≤ 1 then (wb, [])
    else if delOk sh then
      let r := deleteLoop delOk rest (wb.erase sh)
      (r.1, wb.length :: r.2)
    else deleteLoop delOk rest wb

/-- Embedding of lines 215-227: the deletion loop runs only when at least
one sheet was copied and the destination started with placeholder
sheets. -/
def removePlaceholders (delOk : Nat → Bool) (copiedAny : Bool)
    (placeholders wb : List Nat) : List Nat × List Nat :=
  if copiedAny && !placeholders.isEmpty then deleteLoop delOk placeholders wb
  else (wb, [])

/-- Embedding of the per-file loop head of `_run_impl` (lines 156-161),
projected onto its progress events.  `cancelled idx` is the value of the
cancel flag at the check opening iteration `idx` (1-indexed, line 157); a
set flag breaks the loop, otherwise the iteration emits
`(idx, total, name)` and the file is processed. -/
def progressTrace (total : Nat) (cancelled : Nat → Bool) :
    Nat → List (List Char) → List (Nat × Nat × List Char)
  | _, [] => []
  | idx, f :: rest =>
    if cancelled idx then []
    else (idx, total, f) :: progressTrace total cancelled (idx + 1) rest

/-- Split at the first occurrence of `sep`, if any: the part before it and
the part after it. -/
def splitFirst (sep : Char) : List Char → Option (List Char × List Char)
  | [] => none
  | c :: cs =>
    if c = sep then some ([], cs)
    else (splitFirst sep cs).map (fun r => (c :: r.1, r.2))

/-- Model of Python `str.split(sep, maxsplit)` for a one-character
separator: split at the leftmost separator, at most `maxsplit` times. -/
def pySplit (sep : Char) : Nat → List Char → List (List Char)
  | 0, s => [s]
  | m + 1, s =>
    match splitFirst sep s with
    | none => [s]
    | some (a, b) => a :: pySplit sep m b

/-- Decimal value of a character, if it is one of `0`-`9`. -/
def digitVal (c : Char) : Option Nat :=
  if '0' ≤ c ∧ c ≤ '9' then some (c.toNat - 48) else none

/-- Continuation of a decimal literal after its first digit, per the
CPython grammar `digit (["_"] digit)*`: more digits, with single
underscores permitted between digits only. -/
def digitsCore : Nat → List Char → Option Nat
  | acc, [] => some acc
  | acc, '_' :: rest =>
    match rest with
    | [] => none
    | c :: cs =>
      match digitVal c with
      | some d => digitsCore (acc * 10 + d) cs
      | none => none
  | acc, c :: cs =>
    match digitVal c with
    | some d => digitsCore (acc * 10 + d) cs
    | none => none

/-- A nonempty unsigned decimal literal. -/
def pyUnsignedDigits : List Char → Option Nat
  | [] => none
  | c :: cs =>
    match digitVal c with
    | some d => digitsCore d cs
    | none => none

/-- Model of Python `int(s)` on ASCII input: optional surrounding
whitespace, an optional sign, then a nonempty digit sequence; anything
else raises `ValueError`, modelled as `none`. -/
def pyInt (s : List Char) : Option Int :=
  match pyStrip s with
  | '+' :: rest => (pyUnsignedDigits rest).map Int.ofNat
  | '-' :: rest => (pyUnsignedDigits rest).map (fun n => -(Int.ofNat n))
  | t => (pyUnsignedDigits t).map Int.ofNat

/-- Numeric-field handling of the `PROGRESS|` branch of
`_run_impl_powershell` (lines 344-351): with exactly four parts and both
numeric fields parsing as Python ints a progress event
`(current, total, filename)` is produced, and otherwise the line is
skipped (`none`: no event, no error). -/
def progressOfParts : List (List Char) → Option (Int × Int × List Char)
  | [_, p1, p2, p3] =>
    match pyInt p1, pyInt p2 with
    | some cur, some tot => some (cur, tot, p3)
    | _, _ => none
  | _ => none

/-- Embedding of the `PROGRESS|` branch of `_run_impl_powershell`
(lines 342-352): split the line on `|` with maxsplit 3 (line 343) and
hand the parts to the numeric-field handling. -/
def parseProgressLine (line : List Char) : Option (Int × Int × List Char) :=
  progressOfParts (pySplit '|' 3 line)

/- Helper lemmas about `dropWhile`/`pyStrip`. -/

theorem dropWhile_head_false {p : Char → Bool} {l : List Char} {c : Char}
    {rest : List Char} (h : l.dropWhile p = c :: rest) : p c = false := by
  induction l with
  | nil => simp [List.dropWhile] at h
  | cons a l ih =>
    rw [List.dropWhile_cons] at h
    by_cases hp : p a
    · rw [if_pos hp] at h
      exact ih h
    · rw [if_neg hp] at h
      cases h
      exact Bool.eq_false_iff.mpr hp

theorem dropWhile_idem (p : Char → Bool) (l : List Char) :
    (l.dropWhile p).dropWhile p = l.dropWhile p := by
  cases hd : l.dropWhile p with
  | nil => simp
  | cons c rest =>
    rw [List.dropWhile_cons, dropWhile_head_false hd]
    simp

theorem dropWhile_cons_of_false {p : Char → Bool} {c : Char} (t : List Char)
    (hc : p c = false) : (c :: t).dropWhile p = c :: t := by
  rw [List.dropWhile_cons, hc]
  simp

theorem dropEnd_idem (l : List Char) : dropEnd (dropEnd l) = dropEnd l := by
  unfold dropEnd
  rw [List.reverse_reverse, dropWhile_idem]

/-- The result of `dropEnd` is a prefix of its argument. -/
theorem dropEnd_append (l : List Char) :
    dropEnd l ++ (l.reverse.takeWhile isPySpace).reverse = l := by
  unfold dropEnd
  rw [← List.reverse_append, List.takeWhile_append_dropWhile, List.reverse_reverse]

theorem pyStrip_head_false {l : List Char} {c : Char} {rest : List Char}
    (h : pyStrip l = c :: rest) : isPySpace c = false := by
  have happ := dropEnd_append (l.dropWhile isPySpace)
  rw [show dropEnd (l.dropWhile isPySpace) = pyStrip l from rfl, h] at happ
  exact dropWhile_head_false happ.symm

theorem pyStrip_reverse_head_false {l : List Char} {c : Char} {rest : List Char}
    (h : (pyStrip l).reverse = c :: rest) : isPySpace c = false := by
  unfold pyStrip dropEnd at h
  rw [List.reverse_reverse] at h
  exact dropWhile_head_false h

theorem pyStrip_idem (l : List Char) : pyStrip (pyStrip l) = pyStrip l := by
  unfold pyStrip
  have hdrop : (pyStrip l).dropWhile isPySpace = pyStrip l := by
    cases hd : pyStrip l with
    | nil => simp
    | cons c rest => exact dropWhile_cons_of_false rest (pyStrip_head_false hd)
  rw [show dropEnd (l.dropWhile isPySpace) = pyStrip l from rfl, hdrop]
  have : dropEnd (pyStrip l) = pyStrip l := by
    unfold pyStrip
    exact dropEnd_idem _
  exact this

theorem mem_pyStrip {c : Char} {l : List Char} (h : c ∈ pyStrip l) : c ∈ l := by
  unfold pyStrip dropEnd at h
  rw [List.mem_reverse] at h
  have h1 := (List.dropWhile_sublist isPySpace (l := (l.dropWhile isPySpace).reverse)).mem h
  rw [List.mem_reverse] at h1
  exact (List.dropWhile_sublist isPySpace).mem h1

theorem mem_sanitize_not_illegal {c : Char} {s : List Char}
    (h : c ∈ sanitize_sheet_name s) : c ∉ illegalChars := by
  unfold sanitize_sheet_name at h
  by_cases he : pyStrip (s.map (fun ch => if ch ∈ illegalChars then '_' else ch)) = []
  · rw [he] at h
    simp only [he, if_pos rfl] at h
    fin_cases h <;> decide
  · simp only [if_neg he] at h
    have hm := mem_pyStrip h
    rw [List.mem_map] at hm
    obtain ⟨a, _, ha⟩ := hm
    by_cases hill : a ∈ illegalChars
    · rw [if_pos hill] at ha
      rw [← ha]
      decide
    · rw [if_neg hill] at ha
      rw [← ha]
      exact hill

theorem sanitize_length_pos (s : List Char) : 1 ≤ (sanitize_sheet_name s).length := by
  unfold sanitize_sheet_name
  by_cases he : pyStrip (s.map (fun ch => if ch ∈ illegalChars then '_' else ch)) = []
  · simp [he]
  · simp only [if_neg he]
    cases hc : pyStrip (s.map (fun ch => if ch ∈ illegalChars then '_' else ch)) with
    | nil => exact absurd hc he
    | cons a t => simp

/-- C2.  Statement of the claim: `sanitize` is a total Lean function, never
produces a character from the illegal set `: \ / ? * [ ]`, and always
returns a name of length at least one (empty results are replaced by the
default label `"Sheet"`). -/
theorem sanitize_total_legal_nonempty (s : List Char) :
    (∀ c ∈ sanitize_sheet_name s, c ∉ illegalChars) ∧
    1 ≤ (sanitize_sheet_name s).length ∧
    sanitize_sheet_name [] = "Sheet".toList :=
  ⟨fun _ hc => mem_sanitize_not_illegal hc, sanitize_length_pos s, rfl⟩

/-- C2 witness: the claim instantiated at the concrete input `" a:b "`
(whose sanitised form is `"a_b"`), at the member character `'a'`. -/
theorem sanitize_total_legal_nonempty_witness :
    'a' ∉ illegalChars ∧ 1 ≤ (sanitize_sheet_name (" a:b ".toList)).length :=
  ⟨(sanitize_total_legal_nonempty (" a:b ".toList)).1 'a' (by decide),
   (sanitize_total_legal_nonempty (" a:b ".toList)).2.1⟩

theorem map_sanitize_eq_self (s : List Char) :
    (sanitize_sheet_name s).map (fun ch => if ch ∈ illegalChars then '_' else ch) =
      sanitize_sheet_name s :=
  (List.map_congr_left fun _ hc => if_neg (mem_sanitize_not_illegal hc)).trans
    (List.map_id _)

theorem pyStrip_sanitize (s : List Char) :
    pyStrip (sanitize_sheet_name s) = sanitize_sheet_name s := by
  unfold sanitize_sheet_name
  by_cases he : pyStrip (s.map (fun ch => if ch ∈ illegalChars then '_' else ch)) = []
  · simp only [if_pos he]
    decide
  · simp only [if_neg he]
    exact pyStrip_idem _

theorem sanitize_eq_self {t : List Char}
    (hmap : t.map (fun ch => if ch ∈ illegalChars then '_' else ch) = t)
    (hstrip : pyStrip t = t) (hne : t ≠ []) : sanitize_sheet_name t = t := by
  unfold sanitize_sheet_name
  rw [hmap, hstrip, if_neg hne]

theorem sanitize_ne_nil (s : List Char) : sanitize_sheet_name s ≠ [] := by
  intro h
  have := sanitize_length_pos s
  rw [h] at this
  simp at this

theorem sanitize_head_not_space {s : List Char} {c : Char} {rest : List Char}
    (h : sanitize_sheet_name s = c :: rest) : isPySpace c = false := by
  unfold sanitize_sheet_name at h
  by_cases he : pyStrip (s.map (fun ch => if ch ∈ illegalChars then '_' else ch)) = []
  · simp only [if_pos he] at h
    injection h with h1 _
    rw [← h1]
    decide
  · simp only [if_neg he] at h
    exact pyStrip_head_false h

theorem sanitize_last_not_space {s : List Char} {c : Char} {rest : List Char}
    (h : (sanitize_sheet_name s).reverse = c :: rest) : isPySpace c = false := by
  unfold sanitize_sheet_name at h
  by_cases he : pyStrip (s.map (fun ch => if ch ∈ illegalChars then '_' else ch)) = []
  · simp only [if_pos he] at h
    injection h with h1 _
    rw [← h1]
    decide
  · simp only [if_neg he] at h
    exact pyStrip_reverse_head_false h

/-- C10.  Statement of the claim: `sanitize` is idempotent, a sanitized
name contains no illegal characters and carries no surrounding whitespace
(its first and last characters are not whitespace), and the default label
`"Sheet"` is itself a fixed point of `sanitize`. -/
theorem sanitize_idempotent_spec (s : List Char) :
    sanitize_sheet_name (sanitize_sheet_name s) = sanitize_sheet_name s ∧
    (∀ c ∈ sanitize_sheet_name s, c ∉ illegalChars) ∧
    (∀ c rest, sanitize_sheet_name s = c :: rest → isPySpace c = false) ∧
    (∀ c rest, (sanitize_sheet_name s).reverse = c :: rest → isPySpace c = false) ∧
    sanitize_sheet_name ("Sheet".toList) = "Sheet".toList :=
  ⟨sanitize_eq_self (map_sanitize_eq_self s) (pyStrip_sanitize s) (sanitize_ne_nil s),
   fun _ hc => mem_sanitize_not_illegal hc,
   fun _ _ h => sanitize_head_not_space h,
   fun _ _ h => sanitize_last_not_space h,
   by decide⟩

/-- C10 witness: the claim instantiated at the concrete input `" a:b "`,
whose sanitised form is `"a_b"`. -/
theorem sanitize_idempotent_witness :
    sanitize_sheet_name (sanitize_sheet_name (" a:b ".toList)) =
      sanitize_sheet_name (" a:b ".toList) ∧ isPySpace 'a' = false :=
  ⟨(sanitize_idempotent_spec (" a:b ".toList)).1,
   (sanitize_idempotent_spec (" a:b ".toList)).2.2.1 'a' "_b".toList (by decide)⟩

theorem natDigitsRev_length_le :
    ∀ (fuel n k : Nat), n < 10 ^ k → (natDigitsRev fuel n).length ≤ k := by
  intro fuel
  induction fuel with
  | zero => intro n k _; simp [natDigitsRev]
  | succ fuel ih =>
    intro n k hn
    unfold natDigitsRev
    by_cases h0 : n = 0
    · simp [h0]
    · rw [if_neg h0]
      cases k with
      | zero =>
        exfalso
        exact h0 (Nat.lt_one_iff.mp (by simpa using hn))
      | succ k =>
        have hdiv : n / 10 < 10 ^ k := by
          rw [Nat.div_lt_iff_lt_mul (by norm_num : 0 < 10)]
          calc n < 10 ^ (k + 1) := hn
            _ = 10 ^ k * 10 := by ring
        simpa using Nat.succ_le_succ (ih (n / 10) k hdiv)

theorem natChars_length_le {n k : Nat} (hk : 1 ≤ k) (hn : n < 10 ^ k) :
    (natChars n).length ≤ k := by
  unfold natChars
  by_cases h0 : n = 0
  · simpa [h0] using hk
  · rw [if_neg h0]
    simpa using natDigitsRev_length_le n n k hn

theorem suffixFor_length_le {n : Nat} (hn : n ≤ 9999) :
    (suffixFor n).length ≤ 5 := by
  have h4 : (natChars n).length ≤ 4 :=
    natChars_length_le (by norm_num) (lt_of_le_of_lt hn (by norm_num))
  simpa [suffixFor] using Nat.succ_le_succ h4

theorem candidateName_length_le {n : Nat} (base : List Char) (hn : n ≤ 9999) :
    (candidateName base n).length ≤ 31 := by
  have hs := suffixFor_length_le hn
  simp only [candidateName, truncate_sheet_name, List.length_append,
    List.length_take]
  omega

theorem uniqueBase_length_le (d : List Char) : (uniqueBase d).length ≤ 31 := by
  simp only [uniqueBase, truncate_sheet_name, List.length_take]
  omega

theorem probeLoop_some {E : List (List Char)} {b : List Char} :
    ∀ {fuel start : Nat} {c : List Char}, probeLoop E b start fuel = some c →
      ∃ k, k < fuel ∧ c = candidateName b (start + k) ∧ c ∉ E ∧
        ∀ j, j < k → candidateName b (start + j) ∈ E := by
  intro fuel
  induction fuel with
  | zero => intro start c h; simp [probeLoop] at h
  | succ fuel ih =>
    intro start c h
    unfold probeLoop at h
    by_cases hm : candidateName b start ∈ E
    · rw [if_pos hm] at h
      obtain ⟨k, hk, hc, hcE, hmin⟩ := ih h
      refine ⟨k + 1, by omega, by rw [hc]; ring_nf, hcE, ?_⟩
      intro j hj
      cases j with
      | zero => simpa using hm
      | succ j =>
        have := hmin j (by omega)
        rw [show start + (j + 1) = start + 1 + j by ring]
        exact this
    · rw [if_neg hm] at h
      cases h
      exact ⟨0, by omega, by simp, hm, fun j hj => absurd hj (by omega)⟩

theorem probeLoop_none_iff {E : List (List Char)} {b : List Char} :
    ∀ {fuel start : Nat}, probeLoop E b start fuel = none ↔
      ∀ k, k < fuel → candidateName b (start + k) ∈ E := by
  intro fuel
  induction fuel with
  | zero => intro start; simp [probeLoop]
  | succ fuel ih =>
    intro start
    unfold probeLoop
    by_cases hm : candidateName b start ∈ E
    · rw [if_pos hm, ih]
      constructor
      · intro h k hk
        cases k with
        | zero => simpa using hm
        | succ k =>
          rw [show start + (k + 1) = start + 1 + k by ring]
          exact h k (by omega)
      · intro h k hk
        rw [show start + 1 + k = start + (k + 1) by ring]
        exact h (k + 1) (by omega)
    · rw [if_neg hm]
      constructor
      · intro h; cases h
      · intro h
        exact absurd (by simpa using h 0 (by omega)) hm

/-- C1.  Statement of the claim: whenever `make_unique_sheet_name` returns
a name, that name is not among the existing names and has length at most
31, and it is either the truncated sanitized base or the first probe
candidate `base+"_n"` (`2 ≤ n ≤ 9999`, base truncated so the suffix fits
in 31 characters) that avoids the existing names; the function is
deterministic; and it signals `NameSpaceExhausted` exactly when the base
and all 9998 probe candidates are already taken. -/
theorem make_unique_sheet_name_spec (E : List (List Char)) (d : List Char) :
    (∀ r, make_unique_sheet_name E d = Except.ok r →
      r ∉ E ∧ r.length ≤ 31 ∧
        (r = uniqueBase d ∨
          ∃ n, 2 ≤ n ∧ n ≤ 9999 ∧ r = candidateName (uniqueBase d) n ∧
            ∀ m, 2 ≤ m → m < n → candidateName (uniqueBase d) m ∈ E)) ∧
    (make_unique_sheet_name E d = Except.error MergeError.NameSpaceExhausted ↔
      uniqueBase d ∈ E ∧
        ∀ n, 2 ≤ n → n ≤ 9999 → candidateName (uniqueBase d) n ∈ E) ∧
    make_unique_sheet_name E d = make_unique_sheet_name E d := by
  refine ⟨?_, ?_, rfl⟩
  · intro r hr
    unfold make_unique_sheet_name at hr
    by_cases hmem : uniqueBase d ∈ E
    · rw [if_pos hmem] at hr
      cases hpl : probeLoop E (uniqueBase d) 2 9998 with
      | none => rw [hpl] at hr; cases hr
      | some c =>
        rw [hpl] at hr
        cases hr
        obtain ⟨k, hk, hc, hcE, hmin⟩ := probeLoop_some hpl
        refine ⟨hcE, by rw [hc]; exact candidateName_length_le _ (by omega), ?_⟩
        refine Or.inr ⟨2 + k, by omega, by omega, hc, ?_⟩
        intro m hm2 hmk
        have := hmin (m - 2) (by omega)
        rwa [show 2 + (m - 2) = m by omega] at this
    · rw [if_neg hmem] at hr
      cases hr
      exact ⟨hmem, uniqueBase_length_le d, Or.inl rfl⟩
  · unfold make_unique_sheet_name
    by_cases hmem : uniqueBase d ∈ E
    · rw [if_pos hmem]
      cases hpl : probeLoop E (uniqueBase d) 2 9998 with
      | none =>
        simp only [true_iff]
        refine ⟨hmem, fun n hn2 hn9 => ?_⟩
        have := probeLoop_none_iff.mp hpl (n - 2) (by omega)
        rwa [show 2 + (n - 2) = n by omega] at this
      | some c =>
        obtain ⟨k, hk, hc, hcE, _⟩ := probeLoop_some hpl
        constructor
        · intro h; cases h
        · intro ⟨_, hall⟩
          exact absurd (hc ▸ hall (2 + k) (by omega) (by omega)) hcE
    · rw [if_neg hmem]
      constructor
      · intro h; cases h
      · intro ⟨h, _⟩; exact absurd h hmem

/-- C1 witness: with existing names `{"Jan"}` and desired name `"Jan"`,
the function returns `"Jan_2"`, which is new, short enough, and the first
probe candidate. -/
theorem make_unique_sheet_name_witness :
    "Jan_2".toList ∉ ["Jan".toList] ∧ ("Jan_2".toList).length ≤ 31 ∧
      ("Jan_2".toList = uniqueBase ("Jan".toList) ∨
        ∃ n, 2 ≤ n ∧ n ≤ 9999 ∧
          "Jan_2".toList = candidateName (uniqueBase ("Jan".toList)) n ∧
          ∀ m, 2 ≤ m → m < n →
            candidateName (uniqueBase ("Jan".toList)) m ∈ ["Jan".toList]) :=
  (make_unique_sheet_name_spec ["Jan".toList] "Jan".toList).1 ("Jan_2".toList)
    (by rfl)

theorem lexLe_cons_iff {x y : Char} {xs ys : List Char} :
    lexLe (x :: xs) (y :: ys) = true ↔ x < y ∨ (x = y ∧ lexLe xs ys = true) := by
  by_cases hxy : x < y
  · simp [lexLe, hxy]
  · by_cases hyx : y < x
    · have hne : x ≠ y := fun h => absurd (h ▸ hyx) (lt_irrefl x)
      simp [lexLe, hxy, hyx, hne]
    · have hx : x = y := le_antisymm (not_lt.mp hyx) (not_lt.mp hxy)
      simp [lexLe, hxy, hyx, hx]

theorem lexLe_trans :
    ∀ (a b c : List Char), lexLe a b = true → lexLe b c = true → lexLe a c = true := by
  intro a
  induction a with
  | nil => intro b c _ _; rfl
  | cons x xs ih =>
    intro b c h1 h2
    cases b with
    | nil => simp [lexLe] at h1
    | cons y ys =>
      cases c with
      | nil => simp [lexLe] at h2
      | cons z zs =>
        rw [lexLe_cons_iff] at h1 h2 ⊢
        rcases h1 with h1 | ⟨h1e, h1t⟩
        · rcases h2 with h2 | ⟨h2e, _⟩
          · exact Or.inl (lt_trans h1 h2)
          · exact Or.inl (h2e ▸ h1)
        · rcases h2 with h2 | ⟨h2e, h2t⟩
          · exact Or.inl (h1e ▸ h2)
          · exact Or.inr ⟨h1e.trans h2e, ih ys zs h1t h2t⟩

theorem lexLe_total : ∀ (a b : List Char), (lexLe a b || lexLe b a) = true := by
  intro a
  induction a with
  | nil => intro b; rfl
  | cons x xs ih =>
    intro b
    cases b with
    | nil => rfl
    | cons y ys =>
      rw [Bool.or_eq_true, lexLe_cons_iff, lexLe_cons_iff]
      rcases lt_trichotomy x y with h | h | h
      · exact Or.inl (Or.inl h)
      · rcases Bool.or_eq_true _ _ |>.mp (ih ys) with ht | ht
        · exact Or.inl (Or.inr ⟨h, ht⟩)
        · exact Or.inr (Or.inr ⟨h.symm, ht⟩)
      · exact Or.inr (Or.inl h)

theorem is_excel_file_iff (p : DirEntry) :
    is_excel_file p = true ↔
      p.isDir = false ∧ p.name.take 2 ≠ "~$".toList ∧
        (pathSuffix p.name).map Char.toLower ∈ EXCEL_EXTS := by
  unfold is_excel_file
  by_cases h1 : p.isDir <;> by_cases h2 : p.name.take 2 = "~$".toList <;>
    simp [h1, h2]

/-- C3.  Statement of the claim: an entry is in the folder-scan result iff
it is one of the folder's entries, is not a directory, does not begin with
the lock-file marker `~$`, and has a recognised spreadsheet extension; the
result is pairwise sorted by the case-insensitive name comparison; and
scanning the same listing twice gives the same list. -/
theorem scanFolder_spec (entries : List DirEntry) (p : DirEntry) :
    (p ∈ scanFolder entries ↔
      p ∈ entries ∧ p.isDir = false ∧ p.name.take 2 ≠ "~$".toList ∧
        (pathSuffix p.name).map Char.toLower ∈ EXCEL_EXTS) ∧
    (scanFolder entries).Pairwise (fun a b => scanLe a b = true) ∧
    scanFolder entries = scanFolder entries := by
  refine ⟨?_, ?_, rfl⟩
  · unfold scanFolder
    rw [List.mem_mergeSort, List.mem_filter, is_excel_file_iff]
  · exact List.sorted_mergeSort
      (fun a b c => lexLe_trans (nameKey a) (nameKey b) (nameKey c))
      (fun a b => lexLe_total (nameKey a) (nameKey b)) _

/-- C3 witness: a plain workbook entry is kept by the scan of a listing
also containing a directory, a lock file and a text file. -/
theorem scanFolder_witness :
    DirEntry.mk ("b.XLSX".toList) false ∈
      scanFolder [DirEntry.mk ("sub".toList) true,
        DirEntry.mk ("~$b.xlsx".toList) false,
        DirEntry.mk ("b.XLSX".toList) false,
        DirEntry.mk ("notes.txt".toList) false] :=
  (scanFolder_spec _ _).1.mpr ⟨by simp, rfl, by decide, by decide⟩

/-- C9.  Statement of the claim: the file-format code computed from the
destination path's extension is 51 for `.xlsx`, 52 for `.xlsm`, 50 for
`.xlsb`, 56 for `.xls`, and 51 for any other extension. -/
theorem fileformat_for_path_spec (path : List Char) :
    (extOf path = ".xlsx".toList → fileformat_for_path path = 51) ∧
    (extOf path = ".xlsm".toList → fileformat_for_path path = 52) ∧
    (extOf path = ".xlsb".toList → fileformat_for_path path = 50) ∧
    (extOf path = ".xls".toList → fileformat_for_path path = 56) ∧
    (extOf path ∉ [".xlsx".toList, ".xlsm".toList, ".xlsb".toList, ".xls".toList] →
      fileformat_for_path path = 51) := by
  refine ⟨fun h => ?_, fun h => ?_, fun h => ?_, fun h => ?_, fun h => ?_⟩
  · unfold fileformat_for_path
    rw [if_pos h]
  · unfold fileformat_for_path
    rw [if_neg (fun hc => absurd (h.symm.trans hc) (by decide)), if_pos h]
  · unfold fileformat_for_path
    rw [if_neg (fun hc => absurd (h.symm.trans hc) (by decide)),
      if_neg (fun hc => absurd (h.symm.trans hc) (by decide)), if_pos h]
  · unfold fileformat_for_path
    rw [if_neg (fun hc => absurd (h.symm.trans hc) (by decide)),
      if_neg (fun hc => absurd (h.symm.trans hc) (by decide)),
      if_neg (fun hc => absurd (h.symm.trans hc) (by decide)), if_pos h]
  · simp only [List.mem_cons, List.not_mem_nil, or_false, not_or] at h
    obtain ⟨h1, h2, h3, h4⟩ := h
    unfold fileformat_for_path
    rw [if_neg h1, if_neg h2, if_neg h3, if_neg h4]

/-- C9 witness: the claim instantiated at `C:\out\Book1.XLSB` (code 50)
and at the extensionless default case. -/
theorem fileformat_for_path_witness :
    fileformat_for_path ("C:\\out\\Book1.XLSB".toList) = 50 ∧
    fileformat_for_path ("C:\\out\\Book1.data.bin".toList) = 51 :=
  ⟨(fileformat_for_path_spec ("C:\\out\\Book1.XLSB".toList)).2.2.1 (by decide),
   (fileformat_for_path_spec ("C:\\out\\Book1.data.bin".toList)).2.2.2.2 (by decide)⟩

/-- C4 counterexample: the claim quantifies over every run of the
fallback strategy, but in a run whose cancel event is set the code reports
`cancelled` before consulting the exit code, so exit code 0 does not give
`Saved` there. -/
theorem powershellTerminalStatus_cancel_overrides :
    powershellTerminalStatus true 0 ≠ DoneStatus.saved := by decide

/-- C4 (amended).  Statement of the amended claim: for every uncancelled
run of the fallback strategy, the exit code maps to the terminal status as
0 to `Saved`, 3 to `NoSave`, 2 to `Cancelled`, and anything else to
`Error`. -/
theorem powershellTerminalStatus_spec (rc : Int) :
    powershellTerminalStatus false 0 = DoneStatus.saved ∧
    powershellTerminalStatus false 3 = DoneStatus.nosave ∧
    powershellTerminalStatus false 2 = DoneStatus.cancelled ∧
    (rc ≠ 0 → rc ≠ 3 → rc ≠ 2 → powershellTerminalStatus false rc = DoneStatus.error) := by
  refine ⟨by decide, by decide, by decide, fun h0 h3 h2 => ?_⟩
  unfold powershellTerminalStatus
  rw [if_neg (by decide : ¬(false = true)), if_neg h0, if_neg h3, if_neg h2]

/-- C4 witness: the amended claim instantiated at the undocumented exit
code 5. -/
theorem powershellTerminalStatus_spec_witness :
    powershellTerminalStatus false 5 = DoneStatus.error :=
  (powershellTerminalStatus_spec 5).2.2.2 (by decide) (by decide) (by decide)

theorem saveHandshake_requests_eq_and_status :
    ∀ (s : List Char) (answers : List SaveAnswer) (reqs : List (List Char))
      (st : DoneStatus) (sp : Option (List Char)),
      saveHandshake s answers = some (reqs, st, sp) →
        (∀ q ∈ reqs, q = s) ∧ (st = DoneStatus.saved ∨ st = DoneStatus.nosave) := by
  intro s answers
  induction answers with
  | nil => intro reqs st sp h; simp [saveHandshake] at h
  | cons a rest ih =>
    intro reqs st sp h
    cases a with
    | abort =>
      unfold saveHandshake at h
      injection h with h
      cases h
      exact ⟨fun q hq => by simpa using hq, Or.inr rfl⟩
    | chosen p ok =>
      cases ok with
      | true =>
        unfold saveHandshake at h
        injection h with h
        cases h
        exact ⟨fun q hq => by simpa using hq, Or.inl rfl⟩
      | false =>
        unfold saveHandshake at h
        cases hrec : saveHandshake s rest with
        | none => rw [hrec] at h; cases h
        | some r =>
          obtain ⟨reqs0, st0, sp0⟩ := r
          rw [hrec] at h
          injection h with h
          cases h
          obtain ⟨hall, hst⟩ := ih _ _ _ hrec
          refine ⟨fun q hq => ?_, hst⟩
          rcases List.mem_cons.mp hq with hq | hq
          · exact hq
          · exact hall q hq

/-- C5.  Statement of the claim: in the save handshake, a failing save
re-issues a `SaveRequested` with the same suggested name and the run goes
on (whatever the remaining answers produce, with one more request in
front); an abort answer yields exactly one request, terminal status
`NoSave` and no saved file (the destination is closed without saving);
every terminating handshake issues only the original request and ends
`Saved` or `NoSave` (never aborting the run with an error); and two
failing paths followed by one valid path give exactly three
`SaveRequested` events and terminal status `Saved`. -/
theorem saveHandshake_spec (s : List Char) :
    (∀ p rest reqs st sp, saveHandshake s rest = some (reqs, st, sp) →
      saveHandshake s (SaveAnswer.chosen p false :: rest) =
        some (s :: reqs, st, sp)) ∧
    (∀ rest, saveHandshake s (SaveAnswer.abort :: rest) =
      some ([s], DoneStatus.nosave, none)) ∧
    (∀ answers reqs st sp, saveHandshake s answers = some (reqs, st, sp) →
      (∀ q ∈ reqs, q = s) ∧ (st = DoneStatus.saved ∨ st = DoneStatus.nosave)) ∧
    (∀ p1 p2 p3, saveHandshake s
        [SaveAnswer.chosen p1 false, SaveAnswer.chosen p2 false,
          SaveAnswer.chosen p3 true] =
      some ([s, s, s], DoneStatus.saved, some p3)) := by
  refine ⟨fun p rest reqs st sp h => ?_, fun rest => rfl,
    fun answers reqs st sp h => saveHandshake_requests_eq_and_status s answers reqs st sp h,
    fun p1 p2 p3 => rfl⟩
  unfold saveHandshake
  rw [h]

/-- C5 witness: the claim instantiated with suggested name `"m.xlsx"`,
failing paths `a`, `b` and valid path `c`. -/
theorem saveHandshake_witness :
    saveHandshake ("m.xlsx".toList)
        [SaveAnswer.chosen ("a".toList) false, SaveAnswer.chosen ("b".toList) false,
          SaveAnswer.chosen ("c".toList) true] =
      some (["m.xlsx".toList, "m.xlsx".toList, "m.xlsx".toList],
        DoneStatus.saved, some ("c".toList)) ∧
    saveHandshake ("m.xlsx".toList)
        [SaveAnswer.chosen ("a".toList) false, SaveAnswer.abort] =
      some (["m.xlsx".toList, "m.xlsx".toList], DoneStatus.nosave, none) :=
  ⟨(saveHandshake_spec ("m.xlsx".toList)).2.2.2 ("a".toList) ("b".toList) ("c".toList),
   (saveHandshake_spec ("m.xlsx".toList)).1 ("a".toList) [SaveAnswer.abort]
     ["m.xlsx".toList] DoneStatus.nosave none
     ((saveHandshake_spec ("m.xlsx".toList)).2.1 [])⟩

theorem deleteLoop_sizes (delOk : Nat → Bool) :
    ∀ (ph wb : List Nat), ∀ n ∈ (deleteLoop delOk ph wb).2, 2 ≤ n := by
  intro ph
  induction ph with
  | nil => intro wb n hn; simp [deleteLoop] at hn
  | cons sh rest ih =>
    intro wb n hn
    unfold deleteLoop at hn
    by_cases hlen : wb.length ≤ 1
    · rw [if_pos hlen] at hn
      simp at hn
    · rw [if_neg hlen] at hn
      by_cases hok : delOk sh
      · simp only [if_pos hok] at hn
        rcases List.mem_cons.mp hn with hn | hn
        · omega
        · exact ih (wb.erase sh) n hn
      · rw [if_neg hok] at hn
        exact ih wb n hn

theorem deleteLoop_ne_nil (delOk : Nat → Bool) :
    ∀ (ph wb : List Nat), wb ≠ [] → (deleteLoop delOk ph wb).1 ≠ [] := by
  intro ph
  induction ph with
  | nil => intro wb hwb; simpa [deleteLoop] using hwb
  | cons sh rest ih =>
    intro wb hwb
    unfold deleteLoop
    by_cases hlen : wb.length ≤ 1
    · rw [if_pos hlen]
      exact hwb
    · rw [if_neg hlen]
      by_cases hok : delOk sh
      · simp only [if_pos hok]
        refine ih (wb.erase sh) ?_
        have : 1 ≤ (wb.erase sh).length := by
          have := List.length_erase_of_mem (a := sh) (l := wb)
          by_cases hm : sh ∈ wb
          · rw [this hm]; omega
          · rw [List.erase_of_not_mem hm]; omega
        intro hnil
        rw [hnil] at this
        simp at this
      · rw [if_neg hok]
        exact ih wb hwb

/-- C6.  Statement of the claim: placeholders are deleted only if at least
one sheet was copied (with no copy the destination is untouched and no
deletion happens); every successful deletion happens while the destination
still has at least two sheets; and a nonempty destination stays nonempty,
so the last remaining sheet is never deleted. -/
theorem removePlaceholders_spec (delOk : Nat → Bool) (copiedAny : Bool)
    (placeholders wb : List Nat) :
    (copiedAny = false →
      removePlaceholders delOk copiedAny placeholders wb = (wb, [])) ∧
    (∀ n ∈ (removePlaceholders delOk copiedAny placeholders wb).2, 2 ≤ n) ∧
    (wb ≠ [] → (removePlaceholders delOk copiedAny placeholders wb).1 ≠ []) := by
  refine ⟨fun hc => ?_, fun n hn => ?_, fun hwb => ?_⟩
  · unfold removePlaceholders
    rw [hc]
    simp
  · unfold removePlaceholders at hn
    by_cases hrun : (copiedAny && !placeholders.isEmpty) = true
    · rw [if_pos hrun] at hn
      exact deleteLoop_sizes delOk placeholders wb n hn
    · rw [if_neg hrun] at hn
      simp at hn
  · unfold removePlaceholders
    by_cases hrun : (copiedAny && !placeholders.isEmpty) = true
    · rw [if_pos hrun]
      exact deleteLoop_ne_nil delOk placeholders wb hwb
    · rw [if_neg hrun]
      exact hwb

/-- C6 witness: deleting two placeholders out of a three-sheet destination
records both deletions at size at least two and keeps the workbook
nonempty. -/
theorem removePlaceholders_witness :
    2 ≤ 3 ∧ (removePlaceholders (fun _ => true) true [1, 2] [1, 2, 3]).1 ≠ [] :=
  ⟨(removePlaceholders_spec (fun _ => true) true [1, 2] [1, 2, 3]).2.1 3 (by decide),
   (removePlaceholders_spec (fun _ => true) true [1, 2] [1, 2, 3]).2.2 (by decide)⟩

theorem progressTrace_no_cancel (total : Nat) :
    ∀ (files : List (List Char)) (k : Nat),
      progressTrace total (fun _ => false) k files =
        (files.enumFrom k).map (fun e => (e.1, total, e.2)) := by
  intro files
  induction files with
  | nil => intro k; rfl
  | cons f rest ih =>
    intro k
    unfold progressTrace
    rw [if_neg (by decide : ¬(false = true))]
    rw [ih (k + 1)]
    rfl

/-- C7.  Statement of the claim: in an uncancelled run over `N` files the
loop emits exactly `N` progress events; their `current` fields are exactly
`1, 2, …, N` (hence strictly increasing and monotone), every event carries
`totalFiles = N`, and the filenames are the source files in order. -/
theorem progressTrace_spec (files : List (List Char)) :
    (progressTrace files.length (fun _ => false) 1 files).length = files.length ∧
    (progressTrace files.length (fun _ => false) 1 files).map (fun e => e.1) =
      List.range' 1 files.length ∧
    ((progressTrace files.length (fun _ => false) 1 files).map (fun e => e.1)).Pairwise
      (fun a b => a < b) ∧
    (∀ e ∈ progressTrace files.length (fun _ => false) 1 files,
      e.2.1 = files.length) ∧
    (progressTrace files.length (fun _ => false) 1 files).map (fun e => e.2.2) =
      files := by
  have hfst : (progressTrace files.length (fun _ => false) 1 files).map (fun e => e.1) =
      List.range' 1 files.length := by
    rw [progressTrace_no_cancel, List.map_map]
    have : ((fun e : Nat × Nat × List Char => e.1) ∘
        (fun e : Nat × List Char => ((e.1, files.length, e.2) : Nat × Nat × List Char))) =
        Prod.fst := by
      funext e
      rfl
    rw [this, List.enumFrom_map_fst]
  refine ⟨?_, hfst, ?_, ?_, ?_⟩
  · rw [progressTrace_no_cancel, List.length_map, List.enumFrom_length]
  · rw [hfst]
    exact List.pairwise_lt_range' 1 files.length
  · intro e he
    rw [progressTrace_no_cancel] at he
    obtain ⟨a, _, ha⟩ := List.mem_map.mp he
    rw [← ha]
  · rw [progressTrace_no_cancel, List.map_map]
    have : ((fun e : Nat × Nat × List Char => e.2.2) ∘
        (fun e : Nat × List Char => ((e.1, files.length, e.2) : Nat × Nat × List Char))) =
        Prod.snd := by
      funext e
      rfl
    rw [this, List.enumFrom_map_snd]

/-- C7 witness: in the uncancelled two-file run over `a.xlsx`, `b.xlsx`,
the first progress event carries total 2. -/
theorem progressTrace_witness :
    ((1, 2, "a.xlsx".toList) : Nat × Nat × List Char).2.1 =
      (["a.xlsx".toList, "b.xlsx".toList] : List (List Char)).length :=
  (progressTrace_spec ["a.xlsx".toList, "b.xlsx".toList]).2.2.2.1
    (1, 2, "a.xlsx".toList) (by decide)

theorem splitFirst_append {sep : Char} :
    ∀ {a : List Char} (b : List Char), sep ∉ a →
      splitFirst sep (a ++ sep :: b) = some (a, b) := by
  intro a
  induction a with
  | nil =>
    intro b _
    simp [splitFirst]
  | cons c cs ih =>
    intro b ha
    have hc : c ≠ sep := fun h => ha (h ▸ List.mem_cons_self c cs)
    have hcs : sep ∉ cs := fun h => ha (List.mem_cons_of_mem c h)
    show splitFirst sep (c :: (cs ++ sep :: b)) = _
    unfold splitFirst
    rw [if_neg hc, ih b hcs]
    rfl

theorem pySplit_succ (sep : Char) (m : Nat) (s : List Char) :
    pySplit sep (m + 1) s =
      match splitFirst sep s with
      | none => [s]
      | some (a, b) => a :: pySplit sep m b := rfl

theorem pySplit_progress {p1 p2 fn : List Char}
    (h1 : ('|' : Char) ∉ p1) (h2 : ('|' : Char) ∉ p2) :
    pySplit '|' 3 ("PROGRESS".toList ++ '|' :: (p1 ++ '|' :: (p2 ++ '|' :: fn))) =
      ["PROGRESS".toList, p1, p2, fn] := by
  have h0 : ('|' : Char) ∉ "PROGRESS".toList := by decide
  have e1 : pySplit '|' 3 ("PROGRESS".toList ++ '|' :: (p1 ++ '|' :: (p2 ++ '|' :: fn))) =
      "PROGRESS".toList :: pySplit '|' 2 (p1 ++ '|' :: (p2 ++ '|' :: fn)) := by
    show pySplit '|' (2 + 1) _ = _
    rw [pySplit_succ, splitFirst_append _ h0]
  have e2 : pySplit '|' 2 (p1 ++ '|' :: (p2 ++ '|' :: fn)) =
      p1 :: pySplit '|' 1 (p2 ++ '|' :: fn) := by
    show pySplit '|' (1 + 1) _ = _
    rw [pySplit_succ, splitFirst_append _ h1]
  have e3 : pySplit '|' 1 (p2 ++ '|' :: fn) = p2 :: pySplit '|' 0 fn := by
    show pySplit '|' (0 + 1) _ = _
    rw [pySplit_succ, splitFirst_append _ h2]
  rw [e1, e2, e3]
  rfl

/-- C8.  Statement of the claim: a `PROGRESS|` protocol line whose
`current` or `total` field does not parse as a Python int is silently
skipped (no progress event, and the total parsing function never raises),
while a line whose numeric fields both parse is forwarded as the progress
event `(current, total, filename)`. -/
theorem parseProgressLine_spec (p1 p2 fn : List Char)
    (h1 : ('|' : Char) ∉ p1) (h2 : ('|' : Char) ∉ p2) :
    ((pyInt p1 = none ∨ pyInt p2 = none) →
      parseProgressLine
        ("PROGRESS".toList ++ '|' :: (p1 ++ '|' :: (p2 ++ '|' :: fn))) = none) ∧
    (∀ cur tot, pyInt p1 = some cur → pyInt p2 = some tot →
      parseProgressLine
          ("PROGRESS".toList ++ '|' :: (p1 ++ '|' :: (p2 ++ '|' :: fn))) =
        some (cur, tot, fn)) := by
  have hsplit := @pySplit_progress p1 p2 fn h1 h2
  constructor
  · intro h
    unfold parseProgressLine
    rw [hsplit]
    simp only [progressOfParts]
    rcases h with h | h
    · rw [h]
    · cases hcur : pyInt p1 <;> rw [h]
  · intro cur tot hc ht
    unfold parseProgressLine
    rw [hsplit]
    simp only [progressOfParts]
    rw [hc, ht]

/-- C8 witness: the malformed line `PROGRESS|2|x7|a.xlsx` is skipped, and
the well-formed line `PROGRESS|2|10|a.xlsx` becomes the event
`(2, 10, "a.xlsx")`. -/
theorem parseProgressLine_witness :
    parseProgressLine ("PROGRESS".toList ++ '|' ::
        ("2".toList ++ '|' :: ("x7".toList ++ '|' :: "a.xlsx".toList))) = none ∧
    parseProgressLine ("PROGRESS".toList ++ '|' ::
        ("2".toList ++ '|' :: ("10".toList ++ '|' :: "a.xlsx".toList))) =
      some (2, 10, "a.xlsx".toList) :=
  ⟨(parseProgressLine_spec ("2".toList) "x7".toList ("a.xlsx".toList)
      (by decide) (by decide)).1 (Or.inr (by decide)),
   (parseProgressLine_spec ("2".toList) "10".toList ("a.xlsx".toList)
      (by decide) (by decide)).2 2 10 (by decide) (by decide)⟩

end ExcelMerger
